import Mathlib

/-!
Verification of the Benekov HMI-to-MQTT bridge
(src/benekov-mqtt/app/benekov_mqtt/{api,main,discovery}.py) against its
natural-language specification.

The Python code is shallowly embedded over ASCII text modelled as List Char.
Python regular-expression searches are embedded as deterministic scanners:
each pattern of the source is analysed (greedy/lazy pieces, backtracking,
word boundaries) and realised by an equivalent executable function, as noted
at every definition.  Machine-level caveat: Python str predicates (isdigit,
strip, int(), lower) act on Unicode; the embedding fixes the ASCII fragment,
which is the alphabet the device protocol and all claims range over.
-/

namespace Benekov

/-! ## ASCII character classes (Python re escapes over ASCII) -/

/-- The double-quote character, written by code to keep literals readable. -/
def quoteC : Char := Char.ofNat 34

/-- The single-quote character. -/
def squoteC : Char := Char.ofNat 39

/-- Left curly brace. -/
def lbraceC : Char := Char.ofNat 123

/-- Right curly brace. -/
def rbraceC : Char := Char.ofNat 125

/-- Python regex whitespace class (ASCII): space, tab, newline, carriage
return, form feed, vertical tab. -/
def is_py_space (c : Char) : Bool :=
  c = ' ' || c = '\t' || c = '\n' || c = '\r' || c = Char.ofNat 12 || c = Char.ofNat 11

/-- Python regex word class (ASCII): letters, digits, underscore. -/
def is_word_char (c : Char) : Bool :=
  c.isAlphanum || c = '_'

/-- Python str.strip(): remove whitespace from both ends. -/
def py_strip (l : List Char) : List Char :=
  ((l.dropWhile is_py_space).reverse.dropWhile is_py_space).reverse

/-- Numeric value of a decimal digit string. -/
def digits_val (l : List Char) : Nat :=
  l.foldl (fun a c => a * 10 + (c.toNat - 48)) 0

/-- Python str.isdigit() over ASCII: nonempty and all characters digits. -/
def is_digit_string (l : List Char) : Bool :=
  !l.isEmpty && l.all Char.isDigit

/-- Tail automaton for the digit-with-underscore-groups body accepted by
Python int(): after a digit, the remainder is digits and single underscores,
each underscore followed by a digit, ending on a digit. -/
def py_int_tail : List Char → Bool
  | [] => true
  | '_' :: c :: rest => c.isDigit && py_int_tail rest
  | c :: rest => c.isDigit && py_int_tail rest

/-- Digit body of Python int(): nonempty, starts with a digit, digits with
single interior underscores.  Returns the numeric value. -/
def py_digits_core (l : List Char) : Option Nat :=
  match l with
  | [] => none
  | c :: rest =>
    if c.isDigit && py_int_tail rest then some (digits_val (l.filter Char.isDigit))
    else none

/-- Python int(str): strip whitespace, optional sign, digit body with
optional single interior underscores. -/
def py_int (l : List Char) : Option Int :=
  match py_strip l with
  | '+' :: rest => (py_digits_core rest).map (fun n => (n : Int))
  | '-' :: rest => (py_digits_core rest).map (fun n => -(n : Int))
  | rest => (py_digits_core rest).map (fun n => (n : Int))

/-- Python int() on a String. -/
def py_int_str (s : String) : Option Int := py_int s.data

/-- First-occurrence split of a list around a literal sublist:
the part before the first occurrence of the pattern and the part after it.
This is the meaning of a lazy body followed by a literal in a Python regex. -/
def sub_split (pat : List Char) : List Char → Option (List Char × List Char)
  | [] => if pat.isEmpty then some ([], []) else none
  | c :: cs =>
    if pat.isPrefixOf (c :: cs) then some ([], (c :: cs).drop pat.length)
    else (sub_split pat cs).map (fun pr => (c :: pr.1, pr.2))

/-- Whether a literal sublist occurs in a list. -/
def has_sub (pat l : List Char) : Bool := (sub_split pat l).isSome

/-- Match a literal at the head of the list, returning the remainder. -/
def drop_lit (lit : List Char) (s : List Char) : Option (List Char) :=
  if lit.isPrefixOf s then some (s.drop lit.length) else none

/-- re.search semantics: leftmost position a position-matcher succeeds at. -/
def search_first {α : Type} (step : List Char → Option α) : List Char → Option α
  | [] => none
  | c :: cs =>
    match step (c :: cs) with
    | some a => some a
    | none => search_first step cs

/-- re.finditer semantics: successive non-overlapping leftmost matches;
a position-matcher returns a result plus the remainder after the match;
on failure the scan advances one character.  Fuel-structural; every matcher
used consumes at least one character, so fuel equal to the length suffices. -/
def finditer_aux {α : Type} (step : List Char → Option (α × List Char)) :
    Nat → List Char → List α
  | 0, _ => []
  | _ + 1, [] => []
  | f + 1, c :: cs =>
    match step (c :: cs) with
    | some pr => pr.1 :: finditer_aux step f pr.2
    | none => finditer_aux step f cs

/-- re.finditer over a whole list. -/
def finditer {α : Type} (step : List Char → Option (α × List Char)) (s : List Char) :
    List α :=
  finditer_aux step s.length s

/-- re.sub semantics for a pattern realised by a position-matcher returning
the replacement and the remainder; unmatched characters are copied.
Fuel-structural as for finditer. -/
def scan_repl (step : List Char → Option (List Char × List Char)) :
    Nat → List Char → List Char
  | 0, s => s
  | _ + 1, [] => []
  | f + 1, c :: cs =>
    match step (c :: cs) with
    | some pr => pr.1 ++ scan_repl step f pr.2
    | none => c :: scan_repl step f cs

/-- Replace maximal runs of characters satisfying p by one copy of rep
(the meaning of re.sub with a one-class-plus pattern).  The Bool argument
tracks being inside a run. -/
def sub_runs (p : Char → Bool) (rep : Char) : Bool → List Char → List Char
  | _, [] => []
  | inRun, c :: cs =>
    if p c then
      (if inRun then sub_runs p rep true cs else rep :: sub_runs p rep true cs)
    else c :: sub_runs p rep false cs

/-- Python str.replace(pat, rep): replace every leftmost non-overlapping
occurrence.  Fuel-structural; a nonempty pattern consumes at least one
character per replacement. -/
def py_replace_aux (pat rep : List Char) : Nat → List Char → List Char
  | 0, s => s
  | _ + 1, [] => []
  | f + 1, c :: cs =>
    if pat.isPrefixOf (c :: cs) then rep ++ py_replace_aux pat rep f ((c :: cs).drop pat.length)
    else c :: py_replace_aux pat rep f cs

/-- Python str.replace on Strings (the source only uses nonempty patterns;
an empty pattern is returned unchanged here). -/
def py_replace (s pat rep : String) : String :=
  if pat.data.isEmpty then s else ⟨py_replace_aux pat.data rep.data s.data.length s.data⟩

/-- Association-list lookup (Python dict.get), first match. -/
def lookupA {κ α : Type} [DecidableEq κ] : List (κ × α) → κ → Option α
  | [], _ => none
  | (k, v) :: rest, key => if k = key then some v else lookupA rest key

/-- Association-list insert-or-overwrite (Python dict item assignment):
an existing key keeps its position and gets the new value, a new key is
appended. -/
def upsert {κ α : Type} [DecidableEq κ] : List (κ × α) → κ → α → List (κ × α)
  | [], k, v => [(k, v)]
  | (k', v') :: rest, k, v =>
    if k' = k then (k, v) :: rest else (k', v') :: upsert rest k v

/-! ## Telemetry stream decoder (api.py read_values, lines 218-238)

The loop of read_values alternates two regex searches over the remaining
text: a header search for (o digits),(word char), followed by greedy
whitespace (the pattern's optional newline is absorbed by the greedy
whitespace class), then a lazy value search up to the next bar delimiter.
Searching stops when either search fails; each parsed record overwrites the
dict entry of its object id. -/

/-- Header match at one position: the literal o, one or more digits, a comma,
one word character, a comma, then the maximal run of whitespace (the regex
piece of whitespace-star plus optional newline).  Returns the object id, the
type marker, and the remainder. -/
def header_at : List Char → Option (String × Char × List Char)
  | 'o' :: rest =>
    if (rest.takeWhile Char.isDigit).isEmpty then none
    else
      match rest.dropWhile Char.isDigit with
      | ',' :: t :: ',' :: rest2 =>
        if is_word_char t then
          some (⟨'o' :: rest.takeWhile Char.isDigit⟩, t, rest2.dropWhile is_py_space)
        else none
      | _ => none
  | _ => none

/-- re.search for the header pattern: leftmost position where header_at
succeeds. -/
def find_header : List Char → Option (String × Char × List Char)
  | [] => none
  | c :: cs =>
    match header_at (c :: cs) with
    | some r => some r
    | none => find_header cs

/-- re.search for the lazy-value pattern: everything before the first bar,
and the remainder after it; none when no bar remains (the loop then breaks,
discarding the partially-matched record). -/
def find_value : List Char → Option (List Char × List Char)
  | [] => none
  | c :: cs =>
    if c = '|' then some ([], cs)
    else (find_value cs).map (fun pr => (c :: pr.1, pr.2))

/-- One iteration of the read_values loop: header search, then value
search, producing the parsed record (value stripped) and the remainder;
none when either search fails (the loop's break). -/
def read_step (s : List Char) : Option ((String × Char × String) × List Char) :=
  match find_header s with
  | none => none
  | some (i, t, r1) =>
    match find_value r1 with
    | none => none
    | some (v, r2) => some ((i, t, ⟨py_strip v⟩), r2)

/-- The record list produced by the read_values loop, fuel-structural.
Each iteration consumes at least one character, so fuel equal to the length
suffices (proved below). -/
def read_records_aux : Nat → List Char → List (String × Char × String)
  | 0, _ => []
  | f + 1, s =>
    match read_step s with
    | none => []
    | some (rec, r2) => rec :: read_records_aux f r2

/-- The ordered records parsed from a telemetry stream. -/
def read_records (s : List Char) : List (String × Char × String) :=
  read_records_aux s.length s

/-- api.py read_values: the id-to-(type, value) mapping, built by successive
dict assignment over the parsed records (later records overwrite earlier). -/
def read_values (s : List Char) : List (String × Char × String) :=
  (read_records s).foldl (fun m r => upsert m r.1 r.2) []

/-- read_values on a String. -/
def read_values_str (s : String) : List (String × Char × String) := read_values s.data

/-- Lookup in the decoded mapping (dict.get). -/
def lookup_values (s : List Char) (id : String) : Option (Char × String) :=
  lookupA (read_values s) id

/-- A canonical well-formed record serialization, id digits then type marker
then a newline then the value then the bar delimiter — the stream shape
documented at api.py line 222. -/
def encode_record (d : List Char) (t : Char) (v : List Char) : List Char :=
  'o' :: d ++ ',' :: t :: ',' :: '\n' :: v ++ ['|']

/-- Well-formedness of one serialized record: nonempty digit id, word-class
type marker, no bar inside the value. -/
def wf_record (d : List Char) (t : Char) (v : List Char) : Prop :=
  d ≠ [] ∧ (∀ c ∈ d, c.isDigit = true) ∧ is_word_char t = true ∧ '|' ∉ v

/-- Concatenated serialization of a record list. -/
def encode_records (l : List (List Char × Char × List Char)) : List Char :=
  match l with
  | [] => []
  | r :: rest => encode_record r.1 r.2.1 r.2.2 ++ encode_records rest

/-- Well-formedness of every record of a list. -/
def wf_records (l : List (List Char × Char × List Char)) : Prop :=
  ∀ r ∈ l, wf_record r.1 r.2.1 r.2.2

/-! ## Topics (discovery.py slugify and topics, lines 7-35) -/

/-- Characters kept by slugify's character class. -/
def slug_allowed (c : Char) : Bool :=
  ('a' ≤ c && c ≤ 'z') || c.isDigit || c = '_'

/-- discovery.py slugify: lowercase, replace runs outside the allowed class
by one underscore, collapse underscore runs, strip underscores, fall back to
the literal item when empty. -/
def slugify (s : String) : String :=
  let t1 := s.data.map Char.toLower
  let t2 := sub_runs (fun c => !slug_allowed c) '_' false t1
  let t3 := sub_runs (fun c => c = '_') '_' false t2
  let t4 := ((t3.dropWhile (fun c => c = '_')).reverse.dropWhile (fun c => c = '_')).reverse
  if t4.isEmpty then "item" else ⟨t4⟩

/-- discovery.py topics: the shared topic root for one entity. -/
def topic_root (bt host page oid : String) : String :=
  bt ++ "/" ++ slugify host ++ "/" ++ py_replace page ".cgi" "" ++ "/" ++ oid

/-- State topic of an entity. -/
def state_topic (bt host page oid : String) : String := topic_root bt host page oid ++ "/state"

/-- Command topic of an entity. -/
def command_topic (bt host page oid : String) : String := topic_root bt host page oid ++ "/set"

/-- Attributes topic of an entity. -/
def attr_topic (bt host page oid : String) : String := topic_root bt host page oid ++ "/attributes"

/-! ## Entity model (main.py publish_discovery, lines 219-222) -/

/-- A synchronized entity as stored in the entities dict of main.py:
page, read endpoint, object id, label, unit, input kind (the it attribute),
write identifier (mi), enumeration options. -/
structure Entity where
  page : String
  read : String
  id : String
  label : String
  unit : Option String
  it : Option String
  mi : Option String
  enum : Option (List String)
deriving DecidableEq

/-! ## Poll cycle (main.py push_state, lines 224-270) -/

/-- The attributes side-channel payload of push_state, modelled structurally
rather than as serialized JSON: page, label, unit, type, and for truthy
enumerations the option list and, when the raw value parses as an integer,
the raw index. -/
structure AttrsPayload where
  page : String
  label : String
  unit : Option String
  type : Option String
  options : Option (List String)
  index : Option Int
deriving DecidableEq

/-- A published payload: a plain state string or an attributes structure. -/
inductive MsgPayload where
  | strP (s : String)
  | attrP (a : AttrsPayload)
deriving DecidableEq

/-- A retained publication: topic and payload. -/
structure Msg where
  topic : String
  payload : MsgPayload
deriving DecidableEq

/-- push_state state translation (main.py lines 244-252): when the entity's
input kind is the e marker and its option list is truthy (present and
nonempty), a raw value parsing as an in-range integer index is replaced by
the corresponding option; any failure leaves the raw value unchanged. -/
def state_payload (it : Option String) (enum : Option (List String)) (val : String) : String :=
  match enum with
  | some opts =>
    if it = some "e" ∧ opts ≠ [] then
      match py_int_str val with
      | some i =>
        if h : 0 ≤ i ∧ i.toNat < opts.length then opts.get ⟨i.toNat, h.2⟩ else val
      | none => val
    else val
  | none => val

/-- push_state attributes payload (main.py lines 257-269). -/
def attrs_payload (e : Entity) (val : String) : AttrsPayload :=
  { page := e.page
    label := e.label
    unit := e.unit
    type := e.it
    options := match e.enum with
      | some opts => if opts ≠ [] then some opts else none
      | none => none
    index := match e.enum with
      | some opts => if opts ≠ [] then py_int_str val else none
      | none => none }

/-- The messages push_state publishes for one entity given the cycle's
decoded mapping: nothing when the entity's id is absent, otherwise the
retained state message followed by the retained attributes message. -/
def entity_msgs (bt host : String) (vals : List (String × Char × String)) (e : Entity) :
    List Msg :=
  match lookupA vals e.id with
  | none => []
  | some tv =>
    [⟨state_topic bt host e.page e.id, .strP (state_payload e.it e.enum tv.2)⟩,
     ⟨attr_topic bt host e.page e.id, .attrP (attrs_payload e tv.2)⟩]

/-- One step of the by_read.setdefault grouping of push_state: append the
entity to its endpoint's group, creating the group at the end on first
appearance. -/
def add_group (acc : List (String × List Entity)) (e : Entity) : List (String × List Entity) :=
  match acc with
  | [] => [(e.read, [e])]
  | (k, es) :: rest =>
    if k = e.read then (k, es ++ [e]) :: rest else (k, es) :: add_group rest e

/-- push_state's grouping of entities by shared read endpoint. -/
def group_by_read (l : List Entity) : List (String × List Entity) :=
  l.foldl add_group []

/-- Concatenation of per-element message lists. -/
def flat_map_l {α β : Type} (f : α → List β) : List α → List β
  | [] => []
  | a :: as => f a ++ flat_map_l f as

/-- main.py push_state as a message-list function: per endpoint group, fetch
and decode once; a failed fetch publishes nothing for the whole group; each
entity of a successful group contributes its messages.  The fetch
collaborator is a parameter mapping a read endpoint to its stream text
or to a failure. -/
def push_state (fetch : String → Option String) (bt host : String) (ents : List Entity) :
    List Msg :=
  flat_map_l
    (fun g =>
      match fetch g.1 with
      | none => []
      | some txt => flat_map_l (entity_msgs bt host (read_values txt.data)) g.2)
    (group_by_read ents)

/-- Retained-topic map after applying a list of retained publications. -/
def apply_retained (m : String → Option MsgPayload) : List Msg → String → Option MsgPayload
  | [], t => m t
  | msg :: rest, t => apply_retained (fun t' => if t' = msg.topic then some msg.payload else m t') rest t

/-! ## Command dispatch (main.py on_message, lines 272-313) -/

/-- The externally observable effects of one command dispatch: the write
primitive invocations (write identifier and value) and whether a refresh
push_state was triggered. -/
structure Effects where
  writes : List (String × String)
  pushed : Bool
deriving DecidableEq

/-- First index of an exact element (Python list.index), none when absent. -/
def idx_of : List String → String → Option Nat
  | [], _ => none
  | o :: rest, x => if o = x then some 0 else (idx_of rest x).map (· + 1)

/-- on_message write-direction translation for an enumeration with a truthy
option list (main.py lines 294-300): a digit-string payload becomes its
numeric value's decimal representation, otherwise an exact option-label
match becomes its index's decimal representation, otherwise none (the
list.index ValueError caught by the handler). -/
def write_translate (opts : List String) (payload : String) : Option String :=
  if is_digit_string payload.data then some (toString (digits_val payload.data))
  else (idx_of opts payload).map toString

/-- Processing of the one entity whose command topic matched (main.py lines
282-312): a falsy write identifier aborts; kind v writes the payload through;
kind e with a truthy option list writes the translated payload or rejects;
kind e without options writes the raw payload; any other kind does nothing.
The wr parameter is the external write primitive's success oracle; pushed
records whether the post-write refresh poll was triggered. -/
def handle_entity (wr : String → String → Bool) (e : Entity) (payload : String) : Effects :=
  match e.mi with
  | none => ⟨[], false⟩
  | some mi =>
    if mi = "" then ⟨[], false⟩
    else if e.it = some "v" then ⟨[(mi, payload)], wr mi payload⟩
    else if e.it = some "e" then
      match e.enum with
      | some opts =>
        if opts ≠ [] then
          match write_translate opts payload with
          | some v => ⟨[(mi, v)], wr mi v⟩
          | none => ⟨[], false⟩
        else ⟨[(mi, payload)], wr mi payload⟩
      | none => ⟨[(mi, payload)], wr mi payload⟩
    else ⟨[], false⟩

/-- The entity-scan loop of on_message: the first entity whose command topic
equals the message topic is processed and the loop breaks. -/
def on_message_loop (bt host : String) (wr : String → String → Bool)
    (topic payload : String) : List Entity → Effects
  | [] => ⟨[], false⟩
  | e :: rest =>
    if command_topic bt host e.page e.id = topic then handle_entity wr e payload
    else on_message_loop bt host wr topic payload rest

/-- main.py on_message: commands are ignored wholesale under the read-only
profile; otherwise the payload is utf-8 decoded (identity here) and
stripped, and the entity scan runs. -/
def on_message (readOnly : Bool) (bt host : String) (ents : List Entity)
    (wr : String → String → Bool) (topic rawPayload : String) : Effects :=
  if readOnly then ⟨[], false⟩
  else on_message_loop bt host wr topic ⟨py_strip rawPayload.data⟩ ents

/-! ## Entity synchronization filter (main.py build_pages, lines 124-141) -/

/-- A whitelist override record of monitor_whitelist: optional friendly
label and unit. -/
structure WLMeta where
  label : Option String
  unit : Option String
deriving DecidableEq

/-- An entry definition as produced by parse_page (api.py lines 175-178 and
207): sequence number (-1 for the fallback scan), object id, label, input
kind, write identifier, unit, enumeration options. -/
structure Entry where
  n : Int
  id : String
  label : String
  it : Option String
  mi : Option String
  unit : Option String
  enum : Option (List String)
deriving DecidableEq

/-- Whitelist label/unit override applied to a kept entry (main.py lines
134-139); a falsy (absent or empty) override field leaves the entry's field
unchanged. -/
def apply_meta (m : WLMeta) (e : Entry) : Entry :=
  let e1 := match m.label with
    | some l => if l ≠ "" then { e with label := l } else e
    | none => e
  match m.unit with
  | some u => if u ≠ "" then { e1 with unit := some u } else e1
  | none => e1

/-- The entry filter of build_pages (main.py lines 124-141): keep an entry
when its id is in the presence id-set or its input kind is v or e; under the
read-only policy additionally require the (page, id) key to be whitelisted
and apply the whitelist's overrides. -/
def build_pages_filter (readOnly : Bool) (wl : List ((String × String) × WLMeta))
    (page : String) (idset : List String) : List Entry → List Entry
  | [] => []
  | ent :: rest =>
    if ent.id ∈ idset ∨ ent.it = some "v" ∨ ent.it = some "e" then
      (if readOnly then
        match lookupA wl (page, ent.id) with
        | none => build_pages_filter readOnly wl page idset rest
        | some m => apply_meta m ent :: build_pages_filter readOnly wl page idset rest
      else ent :: build_pages_filter readOnly wl page idset rest)
    else build_pages_filter readOnly wl page idset rest

/-! ## Poll interval clamp (main.py lines 44-46) -/

/-- The effective poll interval: the configured integer, floor-clamped to
30 seconds; run()'s loop sleeps exactly this value (main.py line 331). -/
def poll_interval (configured : Int) : Int :=
  if configured < 30 then 30 else configured

/-! ## Read-endpoint extraction (api.py parse_page, lines 113-115) -/

/-- Match of the GFR pattern at one position (api.py line 114): the literal
function, whitespace, the literal GFR(), any non-brace run then the opening
brace, any non-quote run whose last character is an opening parenthesis then
a double quote (the greedy non-quote piece forces the first quote after the
brace to be preceded by the parenthesis), the literal HMI, digits, the
literal Read.cgi, closing quote and parenthesis, optional whitespace,
semicolon, optional whitespace, closing brace.  Returns the captured
endpoint literal. -/
def gfr_at (s : List Char) : Option String :=
  (drop_lit "function".data s).bind fun r1 =>
  let ws := r1.takeWhile is_py_space
  if ws.isEmpty then none
  else
    (drop_lit "GFR()".data (r1.drop ws.length)).bind fun r2 =>
    let a := r2.takeWhile (fun c => c ≠ lbraceC)
    match r2.drop a.length with
    | [] => none
    | _ :: u =>
      let b := u.takeWhile (fun c => c ≠ quoteC)
      match u.drop b.length with
      | [] => none
      | _ :: v =>
        if b.getLast? = some '(' then
          (drop_lit "HMI".data v).bind fun v1 =>
          let ds := v1.takeWhile Char.isDigit
          if ds.isEmpty then none
          else
            (drop_lit "Read.cgi".data (v1.drop ds.length)).bind fun v2 =>
            match v2 with
            | q :: rp :: v3 =>
              if q = quoteC ∧ rp = ')' then
                match (v3.dropWhile is_py_space) with
                | ';' :: w2 =>
                  match w2.dropWhile is_py_space with
                  | c :: _ => if c = rbraceC then some ("HMI" ++ ⟨ds⟩ ++ "Read.cgi") else none
                  | [] => none
                | _ => none
              else none
            | _ => none
        else none

/-- re.search for the GFR pattern over the page text. -/
def gfr_search (html : List Char) : Option String := search_first gfr_at html

/-- api.py parse_page read-endpoint derivation (line 115): the captured GFR
literal when present, otherwise the page name with every occurrence of .cgi
replaced by Read.cgi (Python str.replace). -/
def read_endpoint (page : String) (html : String) : String :=
  match gfr_search html.data with
  | some lit => lit
  | none => py_replace page ".cgi" "Read.cgi"

/-- Modelled from the spec: the read endpoint derived by substring-replacing
the page's own .cgi suffix with Read.cgi, the wording of the specification's
read-endpoint extraction sentence.  Used to compare the specified behaviour
against read_endpoint. -/
def spec_suffix_read_endpoint (page : String) : String :=
  if ".cgi".data.isSuffixOf page.data then
    ⟨page.data.take (page.data.length - 4) ++ "Read.cgi".data⟩
  else page

/-! ## Page model parser: entry extraction (api.py parse_page, lines 117-207)

Each regex of the source is realised by the deterministic procedure its
greedy/lazy pieces and backtracking reduce to; the analysis is recorded at
every matcher.  The localization table parameter is the languages dict,
modelled as an association list. -/

/-- Tag stripper, one position of re.sub with the angle-tag pattern: an
opening angle, at least one non-closing-angle character, a closing angle,
replaced by a space. -/
def strip_tags_step : List Char → Option (List Char × List Char)
  | '<' :: cs =>
    let a := cs.takeWhile (fun c => c ≠ '>')
    if a.isEmpty then none
    else
      match cs.drop a.length with
      | _ :: rest => some ([' '], rest)
      | [] => none
  | _ => none

/-- re.sub of the angle-tag pattern by a space over a whole list. -/
def strip_tags (s : List Char) : List Char := scan_repl strip_tags_step s.length s

/-- Whitespace-run collapse, re.sub of the whitespace-plus pattern by one
space. -/
def collapse_ws (s : List Char) : List Char := sub_runs is_py_space ' ' false s

/-- The markup-stripping label fallback of parse_page (api.py lines
131-132): strip tags to spaces, strip outer whitespace, collapse interior
whitespace runs. -/
def clean_label (lhtml : List Char) : String := ⟨collapse_ws (py_strip (strip_tags lhtml))⟩

/-- api.py resolve_text_from_lg (lines 87-92): resolve a language key at the
target language index, stripped; empty fallback on a missing key or a short
array. -/
def resolve_text_from_lg (langs : List (String × List String)) (key : Option String)
    (li : Nat) : String :=
  match key with
  | some k =>
    match lookupA langs k with
    | some arr => if li < arr.length then ⟨py_strip (arr.getD li "").data⟩ else ""
    | none => ""
  | none => ""

/-- Python str.split on the asterisk delimiter: every piece, empty pieces
included. -/
def split_on_star : List Char → List (List Char)
  | [] => [[]]
  | '*' :: cs => [] :: split_on_star cs
  | c :: cs =>
    match split_on_star cs with
    | p :: ps => (c :: p) :: ps
    | [] => [[c]]

/-- Enumeration-option extraction (api.py lines 163-165): normalize carriage
returns and newlines to spaces, split on asterisks, strip each piece, keep
the truthy (nonempty) pieces. -/
def enum_split (edef : List Char) : List String :=
  let norm := edef.map (fun c => if c = '\r' ∨ c = '\n' then ' ' else c)
  ((split_on_star norm).map (fun p => (⟨py_strip p⟩ : String))).filter (fun s => !s.isEmpty)

/-- Occurrence scan inside the maximal non-closing-angle run a greedy
attribute-region piece can reach: the matcher is tried at every suffix until
the closing angle or the end; all matches are collected (the regex's greedy
backtracking selects among them). -/
def occs_in_run {α : Type} (occ_at : List Char → Option α) : List Char → List α
  | [] => []
  | c :: cs =>
    if c = '>' then []
    else
      match occ_at (c :: cs) with
      | some a => a :: occs_in_run occ_at cs
      | none => occs_in_run occ_at cs

/-- Occurrence of the value-span id attribute: the literal id, equals,
double quote, the letter o, digits, double quote.  Returns the digits and
the remainder after the closing quote. -/
def id_occ_at (s : List Char) : Option (List Char × List Char) :=
  (drop_lit ['i', 'd', '=', quoteC, 'o'] s).bind fun r =>
  let ds := r.takeWhile Char.isDigit
  if ds.isEmpty then none
  else
    match r.drop ds.length with
    | q :: rest => if q = quoteC then some (ds, rest) else none
    | [] => none

/-- Match of the value-span pattern SPAN_VAL_RE at one position: the literal
span opener; the greedy attribute-region piece selects the last id
occurrence inside the maximal non-closing-angle run; the second greedy piece
then reaches the run's closing angle; the lazy body extends to the first
span closer (dotall).  Returns the object id, the attribute text after the
id (group two of the source pattern), the body, and the remainder after the
match. -/
def span_at (s : List Char) : Option ((String × List Char × List Char) × List Char) :=
  (drop_lit "<span".data s).bind fun r =>
  match (occs_in_run id_occ_at r).getLast? with
  | none => none
  | some (ds, after) =>
    let attrs := after.takeWhile (fun c => c ≠ '>')
    match after.drop attrs.length with
    | _ :: r2 => (sub_split "</span>".data r2).map fun pr => ((⟨'o' :: ds⟩, attrs, pr.1), pr.2)
    | [] => none

/-- finditer of SPAN_VAL_RE. -/
def span_iter (s : List Char) : List (String × List Char × List Char) := finditer span_at s

/-- Match of the input-kind filter pattern at one position: the literal it,
equals, double quote, the letter v or e, double quote (the word boundary of
the pattern is checked by the caller). -/
def it_ve_at (s : List Char) : Option Char :=
  (drop_lit ['i', 't', '=', quoteC] s).bind fun r =>
  match r with
  | x :: q :: _ => if (x = 'v' || x = 'e') && q = quoteC then some x else none
  | _ => none

/-- Word-boundary search for the input-kind filter pattern: a match may only
start at the beginning or after a non-word character. -/
def it_ve_scan : Option Char → List Char → Option Char
  | _, [] => none
  | prev, c :: cs =>
    let boundary := match prev with
      | none => true
      | some p => !is_word_char p
    if boundary then
      match it_ve_at (c :: cs) with
      | some x => some x
      | none => it_ve_scan (some c) cs
    else it_ve_scan (some c) cs

/-- The is-a-value-span test of parse_page (api.py line 139 and 189): search
the attribute text for the boundary-guarded input-kind pattern, returning
the captured kind letter. -/
def has_it_ve (attrs : List Char) : Option Char := it_ve_scan none attrs

/-- api.py get_attr (lines 148-150): leftmost occurrence of the attribute
name, equals, double quote, a nonempty non-quote capture, double quote —
with no word boundary, so a name occurring as the tail of a longer
attribute name also matches. -/
def get_attr (name : List Char) : List Char → Option String
  | [] => none
  | c :: cs =>
    match drop_lit (name ++ ['=', quoteC]) (c :: cs) with
    | some r =>
      let v := r.takeWhile (fun c' => c' ≠ quoteC)
      if v.isEmpty then get_attr name cs
      else
        match r.drop v.length with
        | _ :: _ => some ⟨v⟩
        | [] => get_attr name cs
    | none => get_attr name cs

/-- Word-boundary variant of attribute capture, used by the fallback scan's
mi and e searches (api.py lines 194 and 198). -/
def get_attr_wb (name : List Char) : Option Char → List Char → Option String
  | _, [] => none
  | prev, c :: cs =>
    let boundary := match prev with
      | none => true
      | some p => !is_word_char p
    if boundary then
      match drop_lit (name ++ ['=', quoteC]) (c :: cs) with
      | some r =>
        let v := r.takeWhile (fun c' => c' ≠ quoteC)
        if v.isEmpty then get_attr_wb name (some c) cs
        else
          match r.drop v.length with
          | _ :: _ => some ⟨v⟩
          | [] => get_attr_wb name (some c) cs
      | none => get_attr_wb name (some c) cs
    else get_attr_wb name (some c) cs

/-- Occurrence of the label-cell id attribute inside TD_LABEL_RE: the
literal id, equals, either quote, the letter l, digits, either quote. -/
def td_id_occ_at (s : List Char) : Option Unit :=
  (drop_lit "id=".data s).bind fun r =>
  match r with
  | q1 :: 'l' :: r3 =>
    if q1 = quoteC ∨ q1 = squoteC then
      let ds := r3.takeWhile Char.isDigit
      if ds.isEmpty then none
      else
        match r3.drop ds.length with
        | q2 :: _ => if q2 = quoteC ∨ q2 = squoteC then some () else none
        | [] => none
    else none
  | _ => none

/-- Match of TD_LABEL_RE at one position: the literal td opener; the
captured cell body (group two) is independent of which id occurrence the
greedy attribute piece selects, so only the existence of an occurrence
inside the maximal non-closing-angle run matters; the lazy body extends to
the first td closer (dotall). -/
def td_at (s : List Char) : Option (List Char) :=
  (drop_lit "<td".data s).bind fun r =>
  if (occs_in_run td_id_occ_at r).isEmpty then none
  else
    let run := r.takeWhile (fun c => c ≠ '>')
    match r.drop run.length with
    | _ :: r2 => (sub_split "</td>".data r2).map (fun pr => pr.1)
    | [] => none

/-- re.search of TD_LABEL_RE over a row block, returning the cell body. -/
def td_label_search (block : List Char) : Option (List Char) := search_first td_at block

/-- Candidate suffixes after an occurrence of the language-key attribute
opener inside the attribute region (every start before the closing angle). -/
def lg_occs : List Char → List (List Char)
  | [] => []
  | c :: cs =>
    if c = '>' then []
    else
      match drop_lit ['l', 'g', '=', quoteC] (c :: cs) with
      | some r => r :: lg_occs cs
      | none => lg_occs cs

/-- Completion of one language-key candidate of the label-span pattern: a
nonempty non-quote capture, closing quote, the next closing angle, and a
span closer somewhere after it (lazy dotall body). -/
def lg_try (t : List Char) : Option (List Char) :=
  let v := t.takeWhile (fun c => c ≠ quoteC)
  if v.isEmpty then none
  else
    match t.drop v.length with
    | _ :: r2 =>
      match r2.dropWhile (fun c => c ≠ '>') with
      | _ :: u2 => (sub_split "</span>".data u2).map (fun _ => v)
      | [] => none
    | [] => none

/-- Candidate loop in the greedy order (last occurrence first). -/
def lg_candidates : List (List Char) → Option (List Char)
  | [] => none
  | t :: ts =>
    match lg_try t with
    | some v => some v
    | none => lg_candidates ts

/-- Match of the label-span language-key pattern at one position (api.py
line 126): span opener, greedy attribute piece backtracking over the
language-key occurrences from the last, capture, rest of the tag, lazy body
to a span closer. -/
def lg_span_at (s : List Char) : Option (List Char) :=
  (drop_lit "<span".data s).bind fun r => lg_candidates (lg_occs r).reverse

/-- re.search of the label-span language-key pattern. -/
def lg_span_search (lhtml : List Char) : Option (List Char) := search_first lg_span_at lhtml

/-- The unit-class literal of the unit-span patterns. -/
def class_u_lit : List Char := ['c', 'l', 'a', 's', 's', '=', quoteC, 'u', quoteC]

/-- Match of the in-block unit-span pattern at one position (api.py line
157, compiled without dotall): span opener, the unit-class literal inside
the maximal non-closing-angle run, the run's closing angle, then a span
closer with no newline before it (the lazy dot cannot cross a newline). -/
def unit_at (s : List Char) : Option (List Char) :=
  (drop_lit "<span".data s).bind fun r =>
  let run := r.takeWhile (fun c => c ≠ '>')
  if !has_sub class_u_lit run then none
  else
    match r.drop run.length with
    | _ :: r2 =>
      (sub_split "</span>".data r2).bind fun pr =>
        if pr.1.any (fun c => c = '\n') then none else some pr.1
    | [] => none

/-- re.search of the in-block unit-span pattern, with the source's
strip-tags-and-strip post-processing (api.py lines 157-159). -/
def unit_search (block : List Char) : Option String :=
  (search_first unit_at block).map (fun b => (⟨py_strip (strip_tags b)⟩ : String))

/-- Match of DIV_RE at one position: the literal div opener, whitespace,
the literal id and equals, either quote, the letter d, digits, either quote,
closing angle, lazy dotall body to the first div closer.  Returns the
sequence number and the block body plus the remainder. -/
def div_at (s : List Char) : Option ((Nat × List Char) × List Char) :=
  (drop_lit "<div".data s).bind fun r1 =>
  let ws := r1.takeWhile is_py_space
  if ws.isEmpty then none
  else
    (drop_lit "id=".data (r1.drop ws.length)).bind fun r2 =>
    match r2 with
    | q1 :: 'd' :: r3 =>
      if q1 = quoteC ∨ q1 = squoteC then
        let ds := r3.takeWhile Char.isDigit
        if ds.isEmpty then none
        else
          match r3.drop ds.length with
          | q2 :: '>' :: r5 =>
            if q2 = quoteC ∨ q2 = squoteC then
              (sub_split "</div>".data r5).map (fun pr => ((digits_val ds, pr.1), pr.2))
            else none
          | _ => none
      else none
    | _ => none

/-- finditer of DIV_RE: the row blocks of a page. -/
def div_iter (html : List Char) : List (Nat × List Char) := finditer div_at html

/-- First value span of a row block whose attribute text passes the
boundary-guarded input-kind filter (api.py lines 136-141). -/
def first_ve_span : List (String × List Char × List Char) →
    Option (String × List Char × List Char)
  | [] => none
  | m :: ms => if (has_it_ve m.2.1).isSome then some m else first_ve_span ms

/-- The structured-strategy entry of one row block (api.py lines 118-178):
label from the label cell (language key when resolvable, markup-stripping
fallback otherwise), the first filtered value span's attributes read by
get_attr, the block's unit span, and the enumeration from the inline e
attribute or indirected through the languages table by the lg attribute. -/
def entry_of_block (langs : List (String × List String)) (li : Nat) (n : Nat)
    (block : List Char) : Option Entry :=
  let label_text :=
    match td_label_search block with
    | some lhtml =>
      let viaLg :=
        match lg_span_search lhtml with
        | some k => resolve_text_from_lg langs (some ⟨k⟩) li
        | none => ""
      if viaLg = "" then clean_label lhtml else viaLg
    | none => ""
  match first_ve_span (span_iter block) with
  | none => none
  | some (sid, attrs, _) =>
    let it := get_attr ['i', 't'] attrs
    let mi := get_attr ['m', 'i'] attrs
    let edef := get_attr ['e'] attrs
    let unit := unit_search block
    let enum : Option (List String) :=
      match edef with
      | some ed => some (enum_split ed.data)
      | none =>
        match get_attr ['l', 'g'] attrs with
        | some k =>
          match lookupA langs k with
          | some arr => if li < arr.length then some (enum_split (arr.getD li "").data) else none
          | none => none
        | none => none
    some { n := (n : Int), id := sid, label := label_text, it := it, mi := mi,
           unit := unit, enum := enum }

/-- Occurrence of the unit-map id attribute of the fallback scan: the
literal id, equals, double quote, the letter u, digits, double quote. -/
def u_id_occ_at (s : List Char) : Option (List Char × List Char) :=
  (drop_lit ['i', 'd', '=', quoteC, 'u'] s).bind fun r =>
  let ds := r.takeWhile Char.isDigit
  if ds.isEmpty then none
  else
    match r.drop ds.length with
    | q :: rest => if q = quoteC then some (ds, rest) else none
    | [] => none

/-- Match of the fallback unit-span pattern at one position (api.py line
183): span opener; the greedy attribute piece selects the last id
occurrence followed by the unit-class literal inside the run; closing
angle; lazy dotall body to a span closer. -/
def uspan_at (s : List Char) : Option ((String × String) × List Char) :=
  (drop_lit "<span".data s).bind fun r =>
  let cands := (occs_in_run u_id_occ_at r).filter
    (fun pr => has_sub class_u_lit (pr.2.takeWhile (fun c => c ≠ '>')))
  match cands.getLast? with
  | none => none
  | some (ds, after) =>
    let run2 := after.takeWhile (fun c => c ≠ '>')
    match after.drop run2.length with
    | _ :: r2 =>
      (sub_split "</span>".data r2).map fun pr =>
        ((⟨ds⟩, (⟨py_strip (strip_tags pr.1)⟩ : String)), pr.2)
    | [] => none

/-- The units side-table of the fallback scan (api.py lines 182-184), a dict
keyed by the numeric suffix. -/
def units_map (html : List Char) : List (String × String) :=
  (finditer uspan_at html).foldl (fun m pr => upsert m pr.1 pr.2) []

/-- One fallback-scan entry (api.py lines 185-207): value spans anywhere in
the document whose attributes pass the boundary-guarded input-kind filter;
the recorded kind is the filter's captured letter; mi and e are read with
boundary-guarded captures; the unit comes from the units side-table by the
id's numeric suffix; the sequence number is -1 and the label empty. -/
def fallback_entry (um : List (String × String)) (m : String × List Char × List Char) :
    Option Entry :=
  match has_it_ve m.2.1 with
  | none => none
  | some x =>
    let mi := get_attr_wb ['m', 'i'] none m.2.1
    let edef := get_attr_wb ['e'] none m.2.1
    some { n := -1, id := m.1, label := "", it := some (String.singleton x), mi := mi,
           unit := lookupA um (⟨m.1.data.drop 1⟩ : String),
           enum := edef.map (fun ed => enum_split ed.data) }

/-- api.py parse_page entry extraction (lines 117-207): the structured
row-block strategy, with the flat-scan fallback when it yields no entries. -/
def parse_page_entries (langs : List (String × List String)) (li : Nat) (html : String) :
    List Entry :=
  let es := (div_iter html.data).filterMap (fun pr => entry_of_block langs li pr.1 pr.2)
  if es.isEmpty then (span_iter html.data).filterMap (fallback_entry (units_map html.data))
  else es

/-! ## Helper lemmas -/

theorem dropWhile_length_le (p : Char → Bool) (l : List Char) :
    (l.dropWhile p).length ≤ l.length := by
  induction l with
  | nil => simp
  | cons c cs ih =>
    simp only [List.dropWhile_cons]
    split
    · exact Nat.le_succ_of_le ih
    · exact Nat.le_refl _

theorem header_at_some_length {s : List Char} {r : String × Char × List Char}
    (h : header_at s = some r) : r.2.2.length < s.length := by
  unfold header_at at h
  split at h
  case h_2 => exact absurd h (by simp)
  case h_1 rest =>
    split at h
    · exact absurd h (by simp)
    · generalize hdw : rest.dropWhile Char.isDigit = dw at h
      have hdwlen : dw.length ≤ rest.length := by
        rw [← hdw]; exact dropWhile_length_le Char.isDigit rest
      split at h
      case h_2 => exact absurd h (by simp)
      case h_1 t rest2 =>
        split at h
        · injection h with h'
          subst h'
          have h2 := dropWhile_length_le is_py_space rest2
          simp only [List.length_cons]
          simp at hdwlen
          omega
        · exact absurd h (by simp)

theorem find_header_some_length {s : List Char} {r : String × Char × List Char}
    (h : find_header s = some r) : r.2.2.length < s.length := by
  induction s with
  | nil => simp [find_header] at h
  | cons c cs ih =>
    unfold find_header at h
    split at h
    case h_1 r' heq =>
      injection h with h'
      subst h'
      exact header_at_some_length heq
    case h_2 =>
      exact Nat.lt_succ_of_lt (ih h)

theorem find_value_some_length {s : List Char} {pr : List Char × List Char}
    (h : find_value s = some pr) : pr.2.length < s.length := by
  induction s generalizing pr with
  | nil => simp [find_value] at h
  | cons c cs ih =>
    unfold find_value at h
    split at h
    · injection h with h'
      subst h'
      exact Nat.lt_succ_self _
    · match hfv : find_value cs with
      | none => rw [hfv] at h; simp at h
      | some pr' =>
        rw [hfv] at h
        dsimp only [Option.map] at h
        injection h with h'
        subst h'
        show pr'.2.length < cs.length + 1
        exact Nat.lt_succ_of_lt (ih hfv)

theorem read_step_some_length {s : List Char} {pr : (String × Char × String) × List Char}
    (h : read_step s = some pr) : pr.2.length < s.length := by
  unfold read_step at h
  cases hh : find_header s with
  | none => rw [hh] at h; exact absurd h (by simp)
  | some itr =>
    obtain ⟨i, t, r1⟩ := itr
    rw [hh] at h
    dsimp only at h
    cases hv : find_value r1 with
    | none => rw [hv] at h; exact absurd h (by simp)
    | some vr =>
      obtain ⟨v, r2⟩ := vr
      rw [hv] at h
      dsimp only at h
      injection h with h'
      subst h'
      show r2.length < s.length
      have l1 : r1.length < s.length := find_header_some_length hh
      have l2 : r2.length < r1.length := find_value_some_length hv
      omega

theorem read_records_aux_fuel :
    ∀ f1 f2 s, s.length ≤ f1 → s.length ≤ f2 → read_records_aux f1 s = read_records_aux f2 s := by
  intro f1
  induction f1 with
  | zero =>
    intro f2 s h1 _
    have hs : s = [] := List.eq_nil_of_length_eq_zero (Nat.le_zero.mp h1)
    subst hs
    cases f2 <;> simp [read_records_aux, read_step, find_header]
  | succ f ih =>
    intro f2 s h1 h2
    cases f2 with
    | zero =>
      have hs : s = [] := List.eq_nil_of_length_eq_zero (Nat.le_zero.mp h2)
      subst hs
      simp [read_records_aux, read_step, find_header]
    | succ f2' =>
      show read_records_aux (f + 1) s = read_records_aux (f2' + 1) s
      unfold read_records_aux
      cases hh : read_step s with
      | none => rfl
      | some pr =>
        obtain ⟨rec, r2⟩ := pr
        have l1 : r2.length < s.length := read_step_some_length hh
        have := ih f2' r2 (by omega) (by omega)
        simp [this]

theorem read_records_eq (s : List Char) :
    read_records s
      = match read_step s with
        | none => []
        | some (rec, r2) => rec :: read_records r2 := by
  cases s with
  | nil => simp [read_records, read_records_aux, read_step, find_header]
  | cons c cs =>
    show read_records_aux (cs.length + 1) (c :: cs) = _
    unfold read_records_aux
    cases hh : read_step (c :: cs) with
    | none => rfl
    | some pr =>
      obtain ⟨rec, r2⟩ := pr
      have l1 : r2.length < (c :: cs).length := read_step_some_length hh
      simp only [List.length_cons] at l1
      have : read_records_aux cs.length r2 = read_records r2 :=
        read_records_aux_fuel cs.length r2.length r2 (by omega) (by omega)
      simp [this]

theorem takeWhile_append_all {p : Char → Bool} :
    ∀ (d : List Char), (∀ c ∈ d, p c = true) → ∀ (x : Char), p x = false →
      ∀ r, (d ++ x :: r).takeWhile p = d := by
  intro d
  induction d with
  | nil =>
    intro _ x hx r
    simp [List.takeWhile_cons, hx]
  | cons c cs ih =>
    intro hall x hx r
    have hc : p c = true := hall c (by simp)
    simp only [List.cons_append, List.takeWhile_cons, hc, if_true]
    rw [ih (fun a ha => hall a (by simp [ha])) x hx r]

theorem dropWhile_append_pivot {p : Char → Bool} :
    ∀ (a : List Char) (x : Char), p x = false →
      ∀ r, (a ++ x :: r).dropWhile p = a.dropWhile p ++ x :: r := by
  intro a
  induction a with
  | nil =>
    intro x hx r
    simp [List.dropWhile_cons, hx]
  | cons c cs ih =>
    intro x hx r
    simp only [List.cons_append, List.dropWhile_cons]
    split
    · exact ih x hx r
    · simp

theorem dropWhile_idem (p : Char → Bool) (l : List Char) :
    (l.dropWhile p).dropWhile p = l.dropWhile p := by
  induction l with
  | nil => simp
  | cons c cs ih =>
    simp only [List.dropWhile_cons]
    split
    · exact ih
    · simp only [List.dropWhile_cons]
      split
      · simp_all
      · rfl

theorem py_strip_dropWhile (v : List Char) :
    py_strip (v.dropWhile is_py_space) = py_strip v := by
  unfold py_strip
  rw [dropWhile_idem]

theorem mem_of_mem_dropWhile {p : Char → Bool} {c : Char} :
    ∀ {l : List Char}, c ∈ l.dropWhile p → c ∈ l := by
  intro l
  induction l with
  | nil => simp
  | cons a l ih =>
    simp only [List.dropWhile_cons]
    intro h
    split at h
    · exact List.mem_cons_of_mem a (ih h)
    · exact h

theorem find_value_no_bar :
    ∀ (v : List Char), '|' ∉ v → ∀ r, find_value (v ++ '|' :: r) = some (v, r) := by
  intro v
  induction v with
  | nil =>
    intro _ r
    simp [find_value]
  | cons c cs ih =>
    intro hmem r
    have hc : c ≠ '|' := fun h => hmem (by simp [h])
    have hcs : '|' ∉ cs := fun h => hmem (by simp [h])
    simp only [List.cons_append]
    unfold find_value
    simp [hc, ih hcs r]

/-! ## C7 -/

/-- C7: for every configured poll interval value, the effective poll
interval of the periodic loop is floor-clamped to the minimum of 30 seconds:
a configured value below 30 becomes 30 and a configured value of at least 30
is used unchanged. -/
theorem c7_poll_interval_clamp (c : Int) :
    30 ≤ poll_interval c ∧ (c < 30 → poll_interval c = 30) ∧ (30 ≤ c → poll_interval c = c) := by
  unfold poll_interval
  split
  · exact ⟨le_refl _, fun _ => rfl, fun h => by omega⟩
  · exact ⟨by omega, fun h => by omega, fun _ => rfl⟩

/-- C7 witness: the clamp evaluated below and above the floor. -/
theorem c7_poll_interval_clamp_witness :
    30 ≤ poll_interval 5 ∧ poll_interval 5 = 30 ∧ poll_interval 45 = 45 :=
  ⟨(c7_poll_interval_clamp 5).1,
   (c7_poll_interval_clamp 5).2.1 (by decide),
   (c7_poll_interval_clamp 45).2.2 (by decide)⟩

/-! ## C3 -/

/-- C3: decoding the literal telemetry stream yields exactly the mapping of
the two records (the type marker is modelled as the matched character), and
decoding the same well-formed stream again yields the same result (the
decoder is a pure function of the stream text). -/
theorem c3_decode_literal_stream :
    read_values_str "o001,v,\n12.5|o002,e,\n1|"
        = [("o001", 'v', "12.5"), ("o002", 'e', "1")]
    ∧ read_values_str "o001,v,\n12.5|o002,e,\n1|"
        = read_values_str "o001,v,\n12.5|o002,e,\n1|" :=
  ⟨by decide, rfl⟩

/-! ## C1 -/

/-- C1: with a nonempty option list on an enumeration entity, read-direction
translation yields the indexed option when the raw value parses as an
in-range integer, and the raw value unchanged when the parse fails or the
index is out of range; the translation is a total function (never fails). -/
theorem c1_enum_read_translation (opts : List String) (val : String) (hne : opts ≠ []) :
    (∀ i : Int, py_int_str val = some i → 0 ≤ i → ∀ hlt : i.toNat < opts.length,
        state_payload (some "e") (some opts) val = opts.get ⟨i.toNat, hlt⟩)
    ∧ (∀ i : Int, py_int_str val = some i → (i < 0 ∨ opts.length ≤ i.toNat) →
        state_payload (some "e") (some opts) val = val)
    ∧ (py_int_str val = none → state_payload (some "e") (some opts) val = val) := by
  refine ⟨?_, ?_, ?_⟩
  · intro i hi h0 hlt
    simp only [state_payload, hi, true_and, if_pos hne]
    exact dif_pos ⟨h0, hlt⟩
  · intro i hi hout
    simp only [state_payload, hi, true_and, if_pos hne]
    refine dif_neg ?_
    rintro ⟨h0, hlt⟩
    rcases hout with h | h <;> omega
  · intro hi
    simp only [state_payload, hi, true_and, if_pos hne, ite_self]

/-- C1 witness: the translation evaluated on an in-range index, an
out-of-range index, and a non-numeric raw value. -/
theorem c1_enum_read_translation_witness :
    state_payload (some "e") (some ["a", "b"]) "1" = "b"
    ∧ state_payload (some "e") (some ["a", "b"]) "7" = "7"
    ∧ state_payload (some "e") (some ["a", "b"]) "x" = "x" :=
  ⟨((c1_enum_read_translation ["a", "b"] "1" (by decide)).1 1 (by decide) (by decide)
      (by decide)).trans rfl,
   (c1_enum_read_translation ["a", "b"] "7" (by decide)).2.1 7 (by decide) (Or.inr (by decide)),
   (c1_enum_read_translation ["a", "b"] "x" (by decide)).2.2 (by decide)⟩

/-! ## C10 -/

theorem lookupA_upsert {α : Type} (m : List (String × α)) (k : String) (v : α) (key : String) :
    lookupA (upsert m k v) key = if key = k then some v else lookupA m key := by
  induction m with
  | nil =>
    by_cases h : key = k
    · subst h; simp [upsert, lookupA]
    · have h2 : ¬ k = key := fun hh => h hh.symm
      simp [upsert, lookupA, h, h2]
  | cons kv m' ih =>
    obtain ⟨k', v'⟩ := kv
    by_cases hk : k' = k
    · subst hk
      by_cases h : key = k'
      · subst h; simp [upsert, lookupA]
      · have h2 : ¬ k' = key := fun hh => h hh.symm
        simp [upsert, lookupA, h, h2]
    · by_cases h : k' = key
      · subst h
        have h2 : ¬ k' = k := hk
        simp [upsert, lookupA, hk, h2]
      · simp [upsert, lookupA, hk, h, ih]

theorem foldl_upsert_lookup {α : Type} :
    ∀ (recs : List (String × α)) (m : List (String × α)) (key : String),
      lookupA (recs.foldl (fun acc r => upsert acc r.1 r.2) m) key
        = match recs.reverse.find? (fun r => r.1 == key) with
          | some r => some r.2
          | none => lookupA m key := by
  intro recs
  induction recs with
  | nil => intro m key; rfl
  | cons r rs ih =>
    intro m key
    show lookupA (rs.foldl (fun acc r => upsert acc r.1 r.2) (upsert m r.1 r.2)) key = _
    rw [ih (upsert m r.1 r.2) key]
    rw [List.reverse_cons, List.find?_append]
    cases hf : rs.reverse.find? (fun r => r.1 == key) with
    | some x => simp [Option.or]
    | none =>
      simp only [Option.or]
      rw [lookupA_upsert]
      by_cases h : key = r.1
      · simp [List.find?, h]
      · have : (r.1 == key) = false := by
          simp only [beq_eq_false_iff_ne, ne_eq]
          exact fun hh => h hh.symm
        simp [List.find?, this, h]

/-! ## C4 -/

theorem dropWhile_all {p : Char → Bool} :
    ∀ (a : List Char), (∀ c ∈ a, p c = true) → a.dropWhile p = [] := by
  intro a
  induction a with
  | nil => intro _; rfl
  | cons c cs ih =>
    intro hall
    have hc : p c = true := hall c (by simp)
    simp only [List.dropWhile_cons, hc, if_true]
    exact ih (fun a ha => hall a (by simp [ha]))

theorem isEmpty_false_of_ne_nil {a : List Char} (h : a ≠ []) : a.isEmpty = false := by
  cases a with
  | nil => exact absurd rfl h
  | cons c cs => rfl

theorem header_at_encode (d : List Char) (t : Char) (v : List Char) (rest : List Char)
    (h : wf_record d t v) :
    header_at (encode_record d t v ++ rest)
      = some (⟨'o' :: d⟩, t, v.dropWhile is_py_space ++ '|' :: rest) := by
  obtain ⟨hd, hdig, hw, hbar⟩ := h
  have hshape : encode_record d t v ++ rest
      = 'o' :: (d ++ ',' :: (t :: ',' :: '\n' :: (v ++ '|' :: rest))) := by
    simp [encode_record]
  rw [hshape]
  have htake : (d ++ ',' :: (t :: ',' :: '\n' :: (v ++ '|' :: rest))).takeWhile Char.isDigit
      = d := takeWhile_append_all d hdig ',' (by decide) _
  have hdrop : (d ++ ',' :: (t :: ',' :: '\n' :: (v ++ '|' :: rest))).dropWhile Char.isDigit
      = ',' :: (t :: ',' :: '\n' :: (v ++ '|' :: rest)) := by
    rw [dropWhile_append_pivot d ',' (by decide) _, dropWhile_all d hdig]
    rfl
  show header_at ('o' :: (d ++ ',' :: (t :: ',' :: '\n' :: (v ++ '|' :: rest)))) = _
  simp only [header_at]
  rw [htake, hdrop, isEmpty_false_of_ne_nil hd]
  rw [if_neg (by simp)]
  have hdws : ('\n' :: (v ++ '|' :: rest)).dropWhile is_py_space
      = v.dropWhile is_py_space ++ '|' :: rest := by
    have hsp : is_py_space '\n' = true := by decide
    simp only [List.dropWhile_cons, hsp, if_true]
    exact dropWhile_append_pivot v '|' (by decide) rest
  show (if is_word_char t = true then
      some ((⟨'o' :: d⟩ : String), t, ('\n' :: (v ++ '|' :: rest)).dropWhile is_py_space)
    else none) = _
  rw [if_pos hw, hdws]

theorem find_header_encode (d : List Char) (t : Char) (v : List Char) (rest : List Char)
    (h : wf_record d t v) :
    find_header (encode_record d t v ++ rest)
      = some (⟨'o' :: d⟩, t, v.dropWhile is_py_space ++ '|' :: rest) := by
  have hshape : encode_record d t v ++ rest
      = 'o' :: (d ++ ',' :: (t :: ',' :: '\n' :: (v ++ '|' :: rest))) := by
    simp [encode_record]
  have hh := header_at_encode d t v rest h
  rw [hshape] at hh ⊢
  unfold find_header
  rw [hh]

theorem read_step_encode (d : List Char) (t : Char) (v : List Char) (rest : List Char)
    (h : wf_record d t v) :
    read_step (encode_record d t v ++ rest)
      = some (((⟨'o' :: d⟩ : String), t, (⟨py_strip v⟩ : String)), rest) := by
  unfold read_step
  rw [find_header_encode d t v rest h]
  dsimp only
  have hbar' : '|' ∉ v.dropWhile is_py_space := fun hm => h.2.2.2 (mem_of_mem_dropWhile hm)
  rw [find_value_no_bar (v.dropWhile is_py_space) hbar' rest]
  dsimp only
  rw [py_strip_dropWhile]

theorem read_records_cons (d : List Char) (t : Char) (v : List Char) (rest : List Char)
    (h : wf_record d t v) :
    read_records (encode_record d t v ++ rest)
      = ((⟨'o' :: d⟩ : String), t, (⟨py_strip v⟩ : String)) :: read_records rest := by
  rw [read_records_eq, read_step_encode d t v rest h]

theorem read_records_encode_append :
    ∀ (l : List (List Char × Char × List Char)), wf_records l → ∀ (trail : List Char),
      read_records (encode_records l ++ trail)
        = l.map (fun rc => ((⟨'o' :: rc.1⟩ : String), rc.2.1, (⟨py_strip rc.2.2⟩ : String)))
            ++ read_records trail := by
  intro l
  induction l with
  | nil => intro _ trail; simp [encode_records]
  | cons r rs ih =>
    intro hwf trail
    have hr : wf_record r.1 r.2.1 r.2.2 := hwf r (by simp)
    have hrs : wf_records rs := fun x hx => hwf x (by simp [hx])
    show read_records ((encode_record r.1 r.2.1 r.2.2 ++ encode_records rs) ++ trail) = _
    rw [List.append_assoc, read_records_cons r.1 r.2.1 r.2.2 _ hr, ih hrs trail]
    rfl

/-- C4: decode-to-values is a total function of the stream text; on a stream
made of well-formed records followed by trailing content on which the loop
breaks — in particular a trailing record with a matched header but no
closing bar delimiter — it returns exactly the records of the clean prefix,
discarding the trailing record, and the resulting mapping is the mapping of
the clean prefix alone. -/
theorem c4_decode_prefix (l : List (List Char × Char × List Char)) (trail : List Char)
    (oid : String) (t : Char) (r : List Char)
    (hwf : wf_records l) (hhdr : find_header trail = some (oid, t, r))
    (hnb : find_value r = none) :
    read_records (encode_records l ++ trail)
      = l.map (fun rc => ((⟨'o' :: rc.1⟩ : String), rc.2.1, (⟨py_strip rc.2.2⟩ : String)))
    ∧ read_values (encode_records l ++ trail) = read_values (encode_records l) := by
  have hstep : read_step trail = none := by
    unfold read_step
    rw [hhdr]
    dsimp only
    rw [hnb]
  have htrail : read_records trail = [] := by
    rw [read_records_eq, hstep]
  have h1 := read_records_encode_append l hwf trail
  rw [htrail, List.append_nil] at h1
  refine ⟨h1, ?_⟩
  have h2 := read_records_encode_append l hwf []
  have hnil : read_records [] = [] := rfl
  simp only [hnil, List.append_nil] at h2
  unfold read_values
  rw [h1, h2]

/-- C4 witness: one well-formed record followed by a header-matching record
with no closing bar; decoding keeps the clean record and discards the
trailing one. -/
theorem c4_decode_prefix_witness :
    read_records (encode_records [(['0', '0', '1'], 'v', "12.5".data)] ++ "o002,e,\n1".data)
      = [("o001", 'v', "12.5")] := by
  have h := c4_decode_prefix [(['0', '0', '1'], 'v', "12.5".data)] "o002,e,\n1".data
    "o002" 'e' ['1'] (by unfold wf_records wf_record; decide) (by decide) (by decide)
  exact h.1.trans (by decide)

/-- C10: decode-to-values resolves every object id to the pair of the last
well-formed record with that id: later records overwrite earlier ones in
the output mapping. -/
theorem c10_last_record_wins (s : List Char) (key : String) :
    lookup_values s key
      = ((read_records s).reverse.find? (fun r => r.1 == key)).map (fun r => r.2) := by
  unfold lookup_values read_values
  rw [foldl_upsert_lookup]
  cases hf : (read_records s).reverse.find? (fun r => r.1 == key) with
  | some x => simp
  | none => simp [lookupA]

/-! ## C5 -/

theorem apply_meta_id (m : WLMeta) (e : Entry) : (apply_meta m e).id = e.id := by
  unfold apply_meta
  cases m.label <;> cases m.unit <;> simp only [] <;> split <;> try split
  all_goals rfl

theorem build_pages_filter_singleton_mem (page oid : String) (m : WLMeta)
    (idset : List String) :
    ∀ (entries : List Entry) (e : Entry),
      e ∈ build_pages_filter true [((page, oid), m)] page idset entries →
      ∃ e0 ∈ entries, e0.id = oid
        ∧ (e0.id ∈ idset ∨ e0.it = some "v" ∨ e0.it = some "e")
        ∧ e = apply_meta m e0 := by
  intro entries
  induction entries with
  | nil => intro e he; simp [build_pages_filter] at he
  | cons ent rest ih =>
    intro e he
    unfold build_pages_filter at he
    split at he
    case isTrue hok =>
      rw [if_pos rfl] at he
      by_cases hid : oid = ent.id
      · rw [show lookupA [((page, oid), m)] (page, ent.id) = some m by
          simp [lookupA, hid]] at he
        rcases List.mem_cons.mp he with h1 | h2
        · exact ⟨ent, by simp, hid.symm, hok, h1⟩
        · obtain ⟨e0, he0, h⟩ := ih e h2
          exact ⟨e0, by simp [he0], h⟩
      · rw [show lookupA [((page, oid), m)] (page, ent.id) = none by
          simp [lookupA, Prod.ext_iff, hid]] at he
        obtain ⟨e0, he0, h⟩ := ih e he
        exact ⟨e0, by simp [he0], h⟩
    case isFalse hok =>
      obtain ⟨e0, he0, h⟩ := ih e he
      exact ⟨e0, by simp [he0], h⟩

/-- C5: under the read-only policy with a whitelist containing only the pair
of the page and o044, every synchronized entry is an override-applied copy
of an input entry with id o044 — in particular an entry for o075 on that
page is excluded even when o075 is in the presence id-set (the id-set is
arbitrary here, so it may contain o075) — and kept entries receive the
whitelist's label and unit overrides. -/
theorem c5_whitelist_filter (ml mu : Option String) (idset : List String)
    (entries : List Entry) (e : Entry)
    (he : e ∈ build_pages_filter true [(("PAGE.cgi", "o044"), ⟨ml, mu⟩)]
            "PAGE.cgi" idset entries) :
    e.id = "o044" ∧ e.id ≠ "o075"
    ∧ ∃ e0 ∈ entries, e0.id = "o044"
        ∧ (e0.id ∈ idset ∨ e0.it = some "v" ∨ e0.it = some "e")
        ∧ e = apply_meta ⟨ml, mu⟩ e0 := by
  obtain ⟨e0, he0, hid, hok, heq⟩ :=
    build_pages_filter_singleton_mem "PAGE.cgi" "o044" ⟨ml, mu⟩ idset entries e he
  have hide : e.id = "o044" := by rw [heq, apply_meta_id, hid]
  exact ⟨hide, by rw [hide]; decide, e0, he0, hid, hok, heq⟩

/-- C5 witness: a two-entry page with only o044 whitelisted and o075 in the
presence set; the kept entry is the override-applied o044 entry. -/
theorem c5_whitelist_filter_witness :
    (apply_meta ⟨some "Power", some "%"⟩
        ⟨1, "o044", "x", some "v", none, none, none⟩).id = "o044" :=
  (c5_whitelist_filter (some "Power") (some "%") ["o075"]
    [⟨1, "o044", "x", some "v", none, none, none⟩,
     ⟨2, "o075", "y", some "v", none, none, none⟩]
    (apply_meta ⟨some "Power", some "%"⟩ ⟨1, "o044", "x", some "v", none, none, none⟩)
    (by decide)).1

/-! ## C2 -/

theorem on_message_loop_cons (bt host : String) (wr : String → String → Bool)
    (topic payload : String) (a : Entity) (as : List Entity) :
    on_message_loop bt host wr topic payload (a :: as)
      = if command_topic bt host a.page a.id = topic then handle_entity wr a payload
        else on_message_loop bt host wr topic payload as := rfl

theorem on_message_loop_skip (bt host : String) (wr : String → String → Bool)
    (topic payload : String) :
    ∀ (pre l : List Entity), (∀ x ∈ pre, command_topic bt host x.page x.id ≠ topic) →
      on_message_loop bt host wr topic payload (pre ++ l)
        = on_message_loop bt host wr topic payload l := by
  intro pre
  induction pre with
  | nil => intro l _; rfl
  | cons x xs ih =>
    intro l hpre
    show on_message_loop bt host wr topic payload (x :: (xs ++ l)) = _
    rw [on_message_loop_cons, if_neg (hpre x (by simp))]
    exact ih l (fun y hy => hpre y (by simp [hy]))

theorem handle_entity_enum (wr : String → String → Bool) (e : Entity) (p : String)
    (opts : List String) (mi : String)
    (hit : e.it = some "e") (henum : e.enum = some opts) (hne : opts ≠ [])
    (hmi : e.mi = some mi) (hmine : mi ≠ "") :
    handle_entity wr e p
      = match write_translate opts p with
        | some v => ⟨[(mi, v)], wr mi v⟩
        | none => ⟨[], false⟩ := by
  unfold handle_entity
  rw [hmi]
  dsimp only
  rw [if_neg hmine, hit, if_neg (by decide), if_pos rfl, henum]
  dsimp only
  rw [if_pos hne]

/-- C2 counterexample to the claim as stated: with the option list
containing the labels 1 and 0 (in that order), the payload 0 is an exact
case-sensitive option-label match at index 1, so the claimed translation
would invoke the write primitive with the value 1; the code's dispatch
instead writes the digit string's numeric value 0. -/
theorem c2_counterexample :
    idx_of ["1", "0"] "0" = some 1
    ∧ (on_message false "bt" "h"
        [⟨"P.cgi", "R", "o1", "L", none, some "e", some "m", some ["1", "0"]⟩]
        (fun _ _ => true) (command_topic "bt" "h" "P.cgi" "o1") "0").writes
      = [("m", "0")]
    ∧ [(("m" : String), ("0" : String))] ≠ [("m", "1")] := by
  refine ⟨by decide, by decide, by decide⟩

/-- C2 amended: on a writable enumeration entity with a nonempty option
list, a digit-string payload takes precedence and resolves to its numeric
value's decimal representation (even when the payload is also an exact
option label at a different index); a non-digit payload that exactly
matches an option label (case-sensitively) resolves to that label's index
as a string; a payload that is neither is rejected: the write primitive is
never invoked and no refresh state publication is triggered. -/
theorem c2_write_translation (bt host : String) (pre rest : List Entity) (e : Entity)
    (wr : String → String → Bool) (topic payload : String) (opts : List String) (mi : String)
    (hpre : ∀ x ∈ pre, command_topic bt host x.page x.id ≠ topic)
    (hcmd : command_topic bt host e.page e.id = topic)
    (hit : e.it = some "e") (henum : e.enum = some opts) (hne : opts ≠ [])
    (hmi : e.mi = some mi) (hmine : mi ≠ "") :
    (is_digit_string (py_strip payload.data) = true →
      on_message false bt host (pre ++ e :: rest) wr topic payload
        = ⟨[(mi, toString (digits_val (py_strip payload.data)))],
           wr mi (toString (digits_val (py_strip payload.data)))⟩)
    ∧ (∀ k, is_digit_string (py_strip payload.data) = false →
        idx_of opts (⟨py_strip payload.data⟩ : String) = some k →
        on_message false bt host (pre ++ e :: rest) wr topic payload
          = ⟨[(mi, toString k)], wr mi (toString k)⟩)
    ∧ (is_digit_string (py_strip payload.data) = false →
        idx_of opts (⟨py_strip payload.data⟩ : String) = none →
        on_message false bt host (pre ++ e :: rest) wr topic payload = ⟨[], false⟩) := by
  have hred : on_message false bt host (pre ++ e :: rest) wr topic payload
      = handle_entity wr e (⟨py_strip payload.data⟩ : String) := by
    show on_message_loop bt host wr topic (⟨py_strip payload.data⟩ : String) (pre ++ e :: rest)
        = _
    rw [on_message_loop_skip bt host wr topic _ pre (e :: rest) hpre]
    unfold on_message_loop
    rw [if_pos hcmd]
  rw [hred, handle_entity_enum wr e _ opts mi hit henum hne hmi hmine]
  refine ⟨?_, ?_, ?_⟩
  · intro hdig
    unfold write_translate
    dsimp only
    rw [hdig]
    rfl
  · intro k hdig hidx
    unfold write_translate
    dsimp only
    rw [hdig, hidx]
    rfl
  · intro hdig hidx
    unfold write_translate
    dsimp only
    rw [hdig, hidx]
    rfl

/-- C2 witness: a non-digit payload that is an exact option label resolves
to its index; the dispatch writes that index and triggers the refresh. -/
theorem c2_write_translation_witness :
    on_message false "bt" "h"
        [⟨"P.cgi", "R", "o1", "L", none, some "e", some "m", some ["Off", "On"]⟩]
        (fun _ _ => true) (command_topic "bt" "h" "P.cgi" "o1") "On"
      = ⟨[("m", "1")], true⟩ := by
  have h := (c2_write_translation "bt" "h" [] []
    ⟨"P.cgi", "R", "o1", "L", none, some "e", some "m", some ["Off", "On"]⟩
    (fun _ _ => true) (command_topic "bt" "h" "P.cgi" "o1") "On" ["Off", "On"] "m"
    (by simp) rfl rfl rfl (by decide) rfl (by decide)).2.1 1 (by decide) (by decide)
  exact h.trans (by decide)

/-! ## C6 -/

theorem mem_flat_map_l {α β : Type} (f : α → List β) :
    ∀ (l : List α) (b : β), b ∈ flat_map_l f l ↔ ∃ a ∈ l, b ∈ f a := by
  intro l
  induction l with
  | nil => intro b; simp [flat_map_l]
  | cons a as ih =>
    intro b
    simp [flat_map_l, List.mem_append, ih]

theorem add_group_inv (P : Entity → Prop) :
    ∀ (acc : List (String × List Entity)) (e : Entity),
      (∀ ke ∈ acc, ∀ x ∈ ke.2, P x ∧ x.read = ke.1) → P e →
      ∀ ke ∈ add_group acc e, ∀ x ∈ ke.2, P x ∧ x.read = ke.1 := by
  intro acc
  induction acc with
  | nil =>
    intro e _ hPe ke hke x hx
    simp only [add_group, List.mem_singleton] at hke
    subst hke
    simp only [List.mem_singleton] at hx
    subst hx
    exact ⟨hPe, rfl⟩
  | cons kv rest ih =>
    intro e hacc hPe ke hke x hx
    obtain ⟨k, es⟩ := kv
    unfold add_group at hke
    split at hke
    case isTrue heq =>
      rcases List.mem_cons.mp hke with h1 | h2
      · subst h1
        simp only at hx
        rcases List.mem_append.mp hx with hx1 | hx2
        · exact hacc (k, es) (by simp) x hx1
        · simp only [List.mem_singleton] at hx2
          subst hx2
          exact ⟨hPe, heq.symm⟩
      · exact hacc ke (by simp [h2]) x hx
    case isFalse heq =>
      rcases List.mem_cons.mp hke with h1 | h2
      · subst h1
        exact hacc (k, es) (by simp) x hx
      · exact ih e (fun p hp => hacc p (by simp [hp])) hPe ke h2 x hx

theorem group_by_read_inv (P : Entity → Prop) :
    ∀ (l : List Entity) (acc : List (String × List Entity)),
      (∀ ke ∈ acc, ∀ x ∈ ke.2, P x ∧ x.read = ke.1) → (∀ x ∈ l, P x) →
      ∀ ke ∈ l.foldl add_group acc, ∀ x ∈ ke.2, P x ∧ x.read = ke.1 := by
  intro l
  induction l with
  | nil => intro acc hacc _; exact hacc
  | cons e es ih =>
    intro acc hacc hl
    show ∀ ke ∈ es.foldl add_group (add_group acc e), _
    exact ih (add_group acc e)
      (add_group_inv P acc e hacc (hl e (by simp)))
      (fun x hx => hl x (by simp [hx]))

theorem push_state_origin (fetch : String → Option String) (bt host : String)
    (ents : List Entity) (m : Msg) (hm : m ∈ push_state fetch bt host ents) :
    ∃ e ∈ ents, ∃ txt, fetch e.read = some txt
      ∧ ∃ tv, lookupA (read_values txt.data) e.id = some tv
      ∧ (m.topic = state_topic bt host e.page e.id
          ∨ m.topic = attr_topic bt host e.page e.id) := by
  unfold push_state at hm
  obtain ⟨g, hg, hmg⟩ := (mem_flat_map_l _ _ _).mp hm
  have hginv := group_by_read_inv (fun x => x ∈ ents) ents [] (by simp) (fun _ hx => hx) g hg
  cases hf : fetch g.1 with
  | none => rw [hf] at hmg; simp at hmg
  | some txt =>
    rw [hf] at hmg
    dsimp only at hmg
    obtain ⟨e, heg, hme⟩ := (mem_flat_map_l _ _ _).mp hmg
    obtain ⟨hePents, heRead⟩ := hginv e heg
    unfold entity_msgs at hme
    cases hlv : lookupA (read_values txt.data) e.id with
    | none => rw [hlv] at hme; simp at hme
    | some tv =>
      rw [hlv] at hme
      dsimp only at hme
      rcases List.mem_cons.mp hme with h1 | h2
      · exact ⟨e, hePents, txt, heRead ▸ hf, tv, hlv, Or.inl (by rw [h1])⟩
      · simp only [List.mem_singleton] at h2
        exact ⟨e, hePents, txt, heRead ▸ hf, tv, hlv, Or.inr (by rw [h2])⟩

theorem apply_retained_unchanged (t : String) :
    ∀ (msgs : List Msg) (m0 : String → Option MsgPayload),
      (∀ m ∈ msgs, m.topic ≠ t) → apply_retained m0 msgs t = m0 t := by
  intro msgs
  induction msgs with
  | nil => intro m0 _; rfl
  | cons msg rest ih =>
    intro m0 hms
    show apply_retained (fun t' => if t' = msg.topic then some msg.payload else m0 t') rest t
        = m0 t
    rw [ih _ (fun m hm => hms m (by simp [hm]))]
    simp only [if_neg (fun hh : t = msg.topic => hms msg (by simp) hh.symm)]

/-- C6: in a poll cycle, when the fetch of an entity's read endpoint fails,
or when the entity's id is absent from the cycle's decoded mapping, no state
or attributes message is published on that entity's topics, and the retained
map at those topics is unchanged.  The topic-collision hypothesis reflects
the entities dict of the source being keyed by page and object id. -/
theorem c6_poll_skip (fetch : String → Option String) (bt host : String)
    (ents : List Entity) (ent : Entity)
    (huniq : ∀ e ∈ ents,
      (state_topic bt host e.page e.id = state_topic bt host ent.page ent.id
        ∨ state_topic bt host e.page e.id = attr_topic bt host ent.page ent.id
        ∨ attr_topic bt host e.page e.id = state_topic bt host ent.page ent.id
        ∨ attr_topic bt host e.page e.id = attr_topic bt host ent.page ent.id) →
      e.read = ent.read ∧ e.id = ent.id) :
    (fetch ent.read = none →
      ∀ m ∈ push_state fetch bt host ents,
        m.topic ≠ state_topic bt host ent.page ent.id
        ∧ m.topic ≠ attr_topic bt host ent.page ent.id)
    ∧ (∀ txt, fetch ent.read = some txt → lookupA (read_values txt.data) ent.id = none →
        ∀ m ∈ push_state fetch bt host ents,
          m.topic ≠ state_topic bt host ent.page ent.id
          ∧ m.topic ≠ attr_topic bt host ent.page ent.id)
    ∧ ((fetch ent.read = none
          ∨ ∃ txt, fetch ent.read = some txt ∧ lookupA (read_values txt.data) ent.id = none) →
        ∀ m0 : String → Option MsgPayload,
          apply_retained m0 (push_state fetch bt host ents)
              (state_topic bt host ent.page ent.id)
            = m0 (state_topic bt host ent.page ent.id)
          ∧ apply_retained m0 (push_state fetch bt host ents)
              (attr_topic bt host ent.page ent.id)
            = m0 (attr_topic bt host ent.page ent.id)) := by
  have hno : (fetch ent.read = none
        ∨ ∃ txt, fetch ent.read = some txt ∧ lookupA (read_values txt.data) ent.id = none) →
      ∀ m ∈ push_state fetch bt host ents,
        m.topic ≠ state_topic bt host ent.page ent.id
        ∧ m.topic ≠ attr_topic bt host ent.page ent.id := by
    intro hc m hm
    obtain ⟨e, heents, txt', hf', tv, hlv, horigin⟩ :=
      push_state_origin fetch bt host ents m hm
    constructor
    · intro htop
      have hkey := huniq e heents (by
        rcases horigin with h1 | h2
        · exact Or.inl (h1 ▸ htop)
        · exact Or.inr (Or.inr (Or.inl (h2 ▸ htop))))
      rcases hc with hcn | ⟨txt, hcs, hcl⟩
      · rw [hkey.1] at hf'
        rw [hcn] at hf'
        exact absurd hf' (by simp)
      · rw [hkey.1, hcs] at hf'
        have htxt : txt = txt' := Option.some.inj hf'
        rw [← htxt] at hlv
        rw [hkey.2] at hlv
        rw [hcl] at hlv
        exact absurd hlv (by simp)
    · intro htop
      have hkey := huniq e heents (by
        rcases horigin with h1 | h2
        · exact Or.inr (Or.inl (h1 ▸ htop))
        · exact Or.inr (Or.inr (Or.inr (h2 ▸ htop))))
      rcases hc with hcn | ⟨txt, hcs, hcl⟩
      · rw [hkey.1] at hf'
        rw [hcn] at hf'
        exact absurd hf' (by simp)
      · rw [hkey.1, hcs] at hf'
        have htxt : txt = txt' := Option.some.inj hf'
        rw [← htxt] at hlv
        rw [hkey.2] at hlv
        rw [hcl] at hlv
        exact absurd hlv (by simp)
  refine ⟨fun hcn => hno (Or.inl hcn), fun txt hcs hcl => hno (Or.inr ⟨txt, hcs, hcl⟩), ?_⟩
  intro hc m0
  constructor
  · exact apply_retained_unchanged _ _ m0 (fun m hm => (hno hc m hm).1)
  · exact apply_retained_unchanged _ _ m0 (fun m hm => (hno hc m hm).2)

/-- C6 witness: one entity whose endpoint fetch fails; the retained map is
unchanged at its state topic. -/
theorem c6_poll_skip_witness :
    apply_retained (fun _ => none)
        (push_state (fun _ => none) "b" "h"
          [⟨"P.cgi", "R.cgi", "o1", "L", none, some "v", none, none⟩])
        (state_topic "b" "h" "P.cgi" "o1")
      = none := by
  have h := (c6_poll_skip (fun _ => none) "b" "h"
    [⟨"P.cgi", "R.cgi", "o1", "L", none, some "v", none, none⟩]
    ⟨"P.cgi", "R.cgi", "o1", "L", none, some "v", none, none⟩
    (by
      intro e he _
      rw [List.mem_singleton] at he
      subst he
      exact ⟨rfl, rfl⟩)).2.2 (Or.inl rfl) (fun _ => none)
  exact h.1

/-! ## C8 -/

theorem py_replace_aux_fuel (pat rep : List Char) (hpat : pat ≠ []) :
    ∀ f1 f2 s, s.length ≤ f1 → s.length ≤ f2 →
      py_replace_aux pat rep f1 s = py_replace_aux pat rep f2 s := by
  intro f1
  induction f1 with
  | zero =>
    intro f2 s h1 _
    have hs : s = [] := List.eq_nil_of_length_eq_zero (Nat.le_zero.mp h1)
    subst hs
    cases f2 <;> rfl
  | succ f ih =>
    intro f2 s h1 h2
    cases f2 with
    | zero =>
      have hs : s = [] := List.eq_nil_of_length_eq_zero (Nat.le_zero.mp h2)
      subst hs
      rfl
    | succ f2' =>
      cases s with
      | nil => rfl
      | cons c cs =>
        have hplen : 1 ≤ pat.length := List.length_pos.mpr hpat
        simp only [List.length_cons] at h1 h2
        show py_replace_aux pat rep (f + 1) (c :: cs) = py_replace_aux pat rep (f2' + 1) (c :: cs)
        unfold py_replace_aux
        split
        · have hlen : ((c :: cs).drop pat.length).length ≤ cs.length := by
            rw [List.length_drop]
            simp only [List.length_cons]
            omega
          rw [ih f2' ((c :: cs).drop pat.length) (by omega) (by omega)]
        · rw [ih f2' cs (by omega) (by omega)]

theorem py_replace_aux_unfold (pat rep : List Char) (hpat : pat ≠ []) (s : List Char) :
    py_replace_aux pat rep s.length s
      = if pat.isPrefixOf s then
          rep ++ py_replace_aux pat rep (s.drop pat.length).length (s.drop pat.length)
        else
          match s with
          | [] => []
          | c :: cs => c :: py_replace_aux pat rep cs.length cs := by
  cases s with
  | nil =>
    have hnp : pat.isPrefixOf ([] : List Char) = false := by
      cases pat with
      | nil => exact absurd rfl hpat
      | cons p ps => rfl
    rw [hnp]
    rfl
  | cons c cs =>
    have hplen : 1 ≤ pat.length := List.length_pos.mpr hpat
    have hstep : py_replace_aux pat rep ((c :: cs).length) (c :: cs)
        = if pat.isPrefixOf (c :: cs) then
            rep ++ py_replace_aux pat rep cs.length ((c :: cs).drop pat.length)
          else c :: py_replace_aux pat rep cs.length cs := rfl
    rw [hstep]
    by_cases hp : pat.isPrefixOf (c :: cs) = true
    · rw [if_pos hp, if_pos hp]
      have hlen : ((c :: cs).drop pat.length).length ≤ cs.length := by
        rw [List.length_drop]
        simp only [List.length_cons]
        omega
      rw [py_replace_aux_fuel pat rep hpat cs.length ((c :: cs).drop pat.length).length
        ((c :: cs).drop pat.length) hlen (Nat.le_refl _)]
    · rw [if_neg hp, if_neg hp]

theorem py_replace_suffix (rep : List Char) :
    ∀ (pre : List Char), ¬ (".cgi".data <:+: (pre ++ ".cg".data)) →
      py_replace_aux ".cgi".data rep (pre ++ ".cgi".data).length (pre ++ ".cgi".data)
        = pre ++ rep := by
  intro pre
  induction pre with
  | nil =>
    intro _
    show py_replace_aux ".cgi".data rep (".cgi".data).length (".cgi".data) = rep
    rw [py_replace_aux_unfold ".cgi".data rep (by decide) ".cgi".data,
      if_pos (by decide)]
    rw [show List.drop ".cgi".data.length ".cgi".data = ([] : List Char) from by decide]
    rw [show py_replace_aux ".cgi".data rep (List.length ([] : List Char)) [] = []
      from rfl]
    exact List.append_nil rep
  | cons c pre' ih =>
    intro hinf
    have hnp : ¬ (".cgi".data.isPrefixOf ((c :: pre') ++ ".cgi".data) = true) := by
      intro hp
      have hpre : ".cgi".data <+: ((c :: pre') ++ ".cgi".data) :=
        List.isPrefixOf_iff_prefix.mp hp
      have htake : ".cgi".data = ((c :: pre') ++ ".cgi".data).take 4 := by
        have := List.prefix_iff_eq_take.mp hpre
        simpa using this
      have hshape : (c :: pre') ++ ".cgi".data
          = ((c :: pre') ++ ".cg".data) ++ ['i'] := by simp
      have hlen4 : 4 ≤ ((c :: pre') ++ ".cg".data).length := by
        simp
      rw [hshape, List.take_append_of_le_length hlen4] at htake
      exact hinf ⟨[], ((c :: pre') ++ ".cg".data).drop 4, by
        rw [List.nil_append, htake]
        exact List.take_append_drop 4 _⟩
    show py_replace_aux ".cgi".data rep ((c :: (pre' ++ ".cgi".data)).length)
        (c :: (pre' ++ ".cgi".data)) = _
    rw [show (c :: (pre' ++ ".cgi".data)).length = ((pre' ++ ".cgi".data).length + 1) by simp]
    have hunf := py_replace_aux_unfold ".cgi".data rep (by decide) (c :: (pre' ++ ".cgi".data))
    rw [show ((c :: (pre' ++ ".cgi".data)).length) = ((pre' ++ ".cgi".data).length + 1) by simp]
      at hunf
    rw [hunf, if_neg (by simpa using hnp)]
    have hih := ih (fun hi => hinf (by
      obtain ⟨s, t, hst⟩ := hi
      exact ⟨c :: s, t, by simp [← hst]⟩))
    show c :: py_replace_aux ".cgi".data rep (pre' ++ ".cgi".data).length (pre' ++ ".cgi".data)
        = c :: pre' ++ rep
    rw [hih]
    rfl

/-- C8 counterexample to the claim as stated: on a page name in which .cgi
occurs twice, the derivation without a GFR reference replaces every
occurrence (Python str.replace), not only the suffix the claim describes. -/
theorem c8_counterexample :
    gfr_search ("" : String).data = none
    ∧ read_endpoint "HMI1.cgiHMI2.cgi" "" = "HMI1Read.cgiHMI2Read.cgi"
    ∧ spec_suffix_read_endpoint "HMI1.cgiHMI2.cgi" = "HMI1.cgiHMI2Read.cgi"
    ∧ read_endpoint "HMI1.cgiHMI2.cgi" "" ≠ spec_suffix_read_endpoint "HMI1.cgiHMI2.cgi" := by
  refine ⟨by decide, by decide, by decide, by decide⟩

/-- C8 amended: when the page text contains a GFR function body referencing
an HMI-digits-Read.cgi literal, that literal is the read endpoint; when it
does not, the endpoint is the page name with every occurrence of .cgi
replaced by Read.cgi — which coincides with replacing the .cgi suffix
whenever .cgi occurs in the page name only as its suffix. -/
theorem c8_read_endpoint (page html : String) :
    (∀ lit, gfr_search html.data = some lit → read_endpoint page html = lit)
    ∧ (gfr_search html.data = none →
        read_endpoint page html = py_replace page ".cgi" "Read.cgi")
    ∧ (∀ pre : List Char, gfr_search html.data = none → page = ⟨pre ++ ".cgi".data⟩ →
        ¬ (".cgi".data <:+: (pre ++ ".cg".data)) →
        read_endpoint page html = ⟨pre ++ "Read.cgi".data⟩
        ∧ read_endpoint page html = spec_suffix_read_endpoint page) := by
  refine ⟨?_, ?_, ?_⟩
  · intro lit hg
    unfold read_endpoint
    rw [hg]
  · intro hg
    unfold read_endpoint
    rw [hg]
  · intro pre hg hpage hinf
    have hdata : page.data = pre ++ ".cgi".data := by rw [hpage]
    have hrepl : read_endpoint page html = ⟨pre ++ "Read.cgi".data⟩ := by
      unfold read_endpoint
      rw [hg]
      show py_replace page ".cgi" "Read.cgi" = _
      unfold py_replace
      rw [if_neg (by decide)]
      congr 1
      rw [hdata]
      exact py_replace_suffix "Read.cgi".data pre hinf
    refine ⟨hrepl, hrepl.trans ?_⟩
    unfold spec_suffix_read_endpoint
    rw [hdata]
    rw [if_pos (List.isSuffixOf_iff_suffix.mpr ⟨pre, rfl⟩)]
    congr 2
    rw [show (pre ++ ".cgi".data).length - 4 = pre.length by simp]
    exact (List.take_left pre ".cgi".data).symm

/-- C8 witness: derivation on a page name whose only .cgi occurrence is the
suffix, with no GFR reference in the page text, and extraction of a present
GFR literal. -/
theorem c8_read_endpoint_witness :
    read_endpoint "HMI00033.cgi" "<html></html>" = "HMI00033Read.cgi"
    ∧ read_endpoint "HMI00033.cgi"
        "function GFR() \x7b LoadFR(\"HMI00001Read.cgi\"); \x7d" = "HMI00001Read.cgi" := by
  constructor
  · exact ((c8_read_endpoint "HMI00033.cgi" "<html></html>").2.2 "HMI00033".data
      (by decide) (by decide) (by decide)).1.trans (by decide)
  · exact (c8_read_endpoint "HMI00033.cgi"
      "function GFR() \x7b LoadFR(\"HMI00001Read.cgi\"); \x7d").1 "HMI00001Read.cgi" (by decide)

/-! ## C9 -/

set_option maxRecDepth 10000 in
/-- C9 failing input: a row block whose value span was selected by the
boundary-guarded input-kind filter (its attribute text carries the it
attribute with value v), yet the recorded input kind is the capture K taken
from inside the preceding unit attribute, because get_attr searches with no
word boundary; the synchronizer's presence filter then removes the parsed
entry when its id is absent from the presence set, contradicting the claim
that parsed entries always carry kind v or e and are never removed. -/
theorem c9_failing_input :
    parse_page_entries [] 0 "<div id=\"d1\"><span id=\"o009\" unit=\"K\" it=\"v\">x</span></div>"
      = [⟨1, "o009", "", some "K", none, none, none⟩]
    ∧ build_pages_filter false [] "HMI00001.cgi" []
        (parse_page_entries [] 0 "<div id=\"d1\"><span id=\"o009\" unit=\"K\" it=\"v\">x</span></div>")
      = [] := by
  refine ⟨by decide, by decide⟩

end Benekov
